import Mathlib

/-!
Verification development for the `compgraph` repository: a shallow embedding
of the streaming computational-graph engine (`compgraph/operations.py`,
`compgraph/graph.py`) together with theorems settling the specification
claims.

Modelling conventions:
* A consumed stream is a `List` of rows; consuming an output stream that may
  raise a Python exception is an `Except PyErr` value (full materialisation
  semantics: either the whole list is produced or the run fails).
* Python `dict` objects (`TRow`) are association lists in insertion order:
  `Row.get`, `Row.set`, `Row.del` mirror `d[k]`, `d[k] = v` (update in
  place, append when absent) and `del d[k]`.
* The grouping machinery (`itertools.groupby` composed with
  `operator.itemgetter`) is generic over the row type `α` and the key type
  `κ`: the key extractor `keyFn : α → κ` stands for
  `itemgetter(*keys)` and `κ` carries the lexicographic order the Python
  comparison performs on the extracted key values.
-/

/-- Python exceptions surfaced by the engine, by class. -/
inductive PyErr where
  /-- `ValueError(msg)`, e.g. the unsorted-stream check and `Divide`. -/
  | valueError (msg : String)
  /-- `KeyError(key)`, e.g. a missing named source in `run` kwargs. -/
  | keyError (key : String)
  /-- `RuntimeError`: a `StopIteration` escaping a generator (PEP 479). -/
  | runtimeError
  /-- `TypeError`: wrong arity / unsupported operand types. -/
  | typeError
  /-- `ZeroDivisionError` before `Divide` converts it. -/
  | zeroDivisionError
  deriving DecidableEq, Repr

/-- Python's `ArithmeticError` class test: `ZeroDivisionError` is a subclass
of `ArithmeticError`; `ValueError`, `KeyError`, `RuntimeError` and
`TypeError` are not. -/
def PyErr.isArithmeticError : PyErr → Bool
  | .zeroDivisionError => true
  | _ => false

/-- The error `_safe_groupby` raises on a decreasing key transition:
`ValueError('Stream is not sorted by keys')` (the spec's `UnsortedInput`). -/
def unsortedErr : PyErr := .valueError "Stream is not sorted by keys"

/-- Dynamically-typed cell values occurring in rows: integers, strings and
exact numbers standing for Python division results. -/
inductive Value where
  | int (n : Int)
  | str (s : String)
  | rat (q : ℚ)
  deriving DecidableEq, Repr

/-- A row (`TRow = dict[str, Any]`): an insertion-ordered association list
with pairwise-distinct keys (the `dict` invariant). -/
def Row : Type := List (String × Value)

instance : DecidableEq Row := inferInstanceAs (DecidableEq (List (String × Value)))

instance : Membership (String × Value) Row :=
  inferInstanceAs (Membership (String × Value) (List (String × Value)))

instance (x : String × Value) (r : Row) : Decidable (x ∈ r) :=
  inferInstanceAs (Decidable (x ∈ (show List (String × Value) from r)))

/-- Python `d.get(k)` / `k in d`: the value bound to `k`, if any. -/
def Row.get : Row → String → Option Value
  | [], _ => none
  | (k, v) :: r, q => if k = q then some v else Row.get r q

/-- Python `d[q] = w`: update the existing binding in place (keeping its position)
or append a new binding at the end — Python `dict` assignment. -/
def Row.set : Row → String → Value → Row
  | [], q, w => [(q, w)]
  | (k, v) :: r, q, w => if k = q then (k, w) :: r else (k, v) :: Row.set r q w

/-- Python `del d[q]`: remove the binding of `q` (callers only delete present keys). -/
def Row.del : Row → String → Row
  | [], _ => []
  | (k, v) :: r, q => if k = q then r else (k, v) :: Row.del r q

/-- The keys of a row, in insertion order. -/
def Row.keys (r : Row) : List String := r.map Prod.fst

/-- The grouping `itertools.groupby(rows, keyFn)`, fully consumed: maximal runs of
adjacent rows with equal extracted keys, each tagged with that key. -/
def pyGroupby {α κ : Type} [DecidableEq κ] (keyFn : α → κ) : List α → List (κ × List α)
  | [] => []
  | a :: as =>
    match pyGroupby keyFn as with
    | [] => [(keyFn a, [a])]
    | (k, g) :: gs =>
      if keyFn a = k then (k, a :: g) :: gs else (keyFn a, [a]) :: (k, g) :: gs

/-- The key-monotonicity check of `_safe_groupby`'s loop: walk the remaining
groups carrying the previous key; a strictly decreasing transition raises
`ValueError('Stream is not sorted by keys')`. -/
def checkSorted {α κ : Type} [LinearOrder κ] :
    κ → List (κ × List α) → Except PyErr (List (κ × List α))
  | _, [] => .ok []
  | prev, (k, g) :: gs =>
    if prev > k then .error unsortedErr
    else do
      let rest ← checkSorted k gs
      .ok ((k, g) :: rest)

/-- The utility `_safe_groupby(rows, keys)` for a non-empty key tuple, fully consumed.
The initial `next(groups)` on an empty stream raises `StopIteration` inside
the generator, which Python converts to `RuntimeError`; afterwards each new
group's key is checked against the previous one. -/
def safeGroupby {α κ : Type} [LinearOrder κ] (keyFn : α → κ) (rows : List α) :
    Except PyErr (List (κ × List α)) :=
  match pyGroupby keyFn rows with
  | [] => .error .runtimeError
  | (k, g) :: gs => do
    let rest ← checkSorted k gs
    .ok ((k, g) :: rest)

/-- The operation `Reduce.__call__`: group the input with `_safe_groupby` and concatenate
the reducer's output per group; with an empty key tuple `_safe_groupby`
yields the single pair `(keys, rows)`. -/
def reduceCall {α κ : Type} [LinearOrder κ] (reducer : List String → List α → List α)
    (keys : List String) (keyFn : α → κ) (rows : List α) : Except PyErr (List α) :=
  if keys = [] then .ok (reducer keys rows)
  else do
    let gs ← safeGroupby keyFn rows
    .ok (gs.flatMap fun g => reducer keys g.2)

/-- Size of the iterator-state slot of `Join.__call__`'s merge loop:
`(None, None)` holds nothing, a current `(key, group)` pair holds one. -/
def measOpt {γ : Type} : Option γ → Nat
  | none => 0
  | some _ => 1

/-- The `while True` merge loop of `Join.__call__`, translated with the
iterator protocol made explicit: `cl`/`cr` are the current
`(keys_left, rows_left_group)` / `(keys_right, rows_right_group)` slots
(`none` is the `(None, None)` sentinel after exhaustion) and `ls`/`rs`
hold the groups `next` has not yet returned. -/
def joinLoop {α κ β : Type} [LinearOrder κ]
    (joiner : List String → List α → List α → List β) (keys : List String) :
    Option (κ × List α) → Option (κ × List α) →
    List (κ × List α) → List (κ × List α) → List β
  | some (kl, gl), some (kr, gr), ls, rs =>
    if kl = kr then
      joiner keys gl gr ++ joinLoop joiner keys ls.head? rs.head? ls.tail rs.tail
    else if kl > kr then
      joiner keys [] gr ++ joinLoop joiner keys (some (kl, gl)) rs.head? ls rs.tail
    else
      joiner keys gl [] ++ joinLoop joiner keys ls.head? (some (kr, gr)) ls.tail rs
  | some (_, gl), none, ls, rs =>
    joiner keys gl [] ++ joinLoop joiner keys ls.head? none ls.tail rs
  | none, some (_, gr), ls, rs =>
    joiner keys [] gr ++ joinLoop joiner keys none rs.head? ls rs.tail
  | none, none, _, _ => []
  termination_by cl cr ls rs => ls.length + rs.length + measOpt cl + measOpt cr
  decreasing_by
  all_goals cases ls <;> cases rs <;> simp [measOpt] <;> omega

/-- The operation `Join.__call__`: feed both inputs through `_safe_groupby` and run the
merge loop.  With an empty key tuple `_safe_groupby` yields the single pair
`(keys, rows)` on each side, the two keys are equal, and the loop collapses
to one `joiner(keys, left, right)` call. -/
def joinCall {α κ β : Type} [LinearOrder κ]
    (joiner : List String → List α → List α → List β) (keys : List String)
    (keyFn : α → κ) (left right : List α) : Except PyErr (List β) :=
  if keys = [] then .ok (joiner keys left right)
  else do
    let gl ← safeGroupby keyFn left
    let gr ← safeGroupby keyFn right
    .ok (joinLoop joiner keys gl.head? gr.head? gl.tail gr.tail)

/-- Spec-level description of the merge loop (§4.6 of the spec): equal keys
delegate both groups and advance both sides; the smaller key delegates its
group against the empty group and advances its side only; an exhausted side
is replaced by the empty group; both exhausted terminates. -/
def mergeGroupsSpec {α κ β : Type} [LinearOrder κ]
    (joiner : List String → List α → List α → List β) (keys : List String) :
    List (κ × List α) → List (κ × List α) → List β
  | [], [] => []
  | (_, gl) :: ls, [] => joiner keys gl [] ++ mergeGroupsSpec joiner keys ls []
  | [], (_, gr) :: rs => joiner keys [] gr ++ mergeGroupsSpec joiner keys [] rs
  | (kl, gl) :: ls, (kr, gr) :: rs =>
    if kl = kr then joiner keys gl gr ++ mergeGroupsSpec joiner keys ls rs
    else if kl > kr then joiner keys [] gr ++ mergeGroupsSpec joiner keys ((kl, gl) :: ls) rs
    else joiner keys gl [] ++ mergeGroupsSpec joiner keys ls ((kr, gr) :: rs)
  termination_by ls rs => ls.length + rs.length
  decreasing_by all_goals simp_arith

/-- One iteration of `Joiner.common_join_part`'s inner merge, processing one
`(key, value)` item of the left row against the row built so far:
absent key → assign; collision on a join key → keep; collision on a
non-join key → delete the binding and add both suffixed bindings. -/
def joinStep (keys : List String) (sA sB : String) (new : Row) (kv : String × Value) : Row :=
  match new.get kv.1 with
  | none => new.set kv.1 kv.2
  | some old =>
    if kv.1 ∈ keys then new
    else ((new.del kv.1).set (kv.1 ++ sA) kv.2).set (kv.1 ++ sB) old

/-- The row `common_join_part` builds for one `(left_row, right_row)` pair:
start from a copy of the right row, then fold `joinStep` over the left
row's items. -/
def mergeRow (keys : List String) (sA sB : String) (lrow rrow : Row) : Row :=
  lrow.foldl (joinStep keys sA sB) rrow

/-- The primitive `Joiner.common_join_part(keys, left_rows, right_rows, join_type)`:
swap the suffixes when `join_type == 'right'`, then produce the merged row
for every pair, iterating the materialised right group once per left row. -/
def commonJoinPart (sA sB : String) (joinType : String) (keys : List String)
    (leftRows rightRows : List Row) : List Row :=
  let s := if joinType = "right" then (sB, sA) else (sA, sB)
  leftRows.flatMap fun l => rightRows.map fun r => mergeRow keys s.1 s.2 l r

/-- The strategy `InnerJoiner.__call__`: delegate to `common_join_part` with the default
`join_type='any'`. -/
def innerJoiner (sA sB : String) (keys : List String) (rowsA rowsB : List Row) : List Row :=
  commonJoinPart sA sB "any" keys rowsA rowsB

/-- The strategy `RightJoiner.__call__`: materialise the left group; if it is non-empty,
call `common_join_part` with the two groups in swapped positions and
`join_type='right'`; otherwise pass the right rows through. -/
def rightJoiner (sA sB : String) (keys : List String) (rowsA rowsB : List Row) : List Row :=
  if rowsA = [] then rowsB
  else commonJoinPart sA sB "right" keys rowsB rowsA

/-- Modelled from the spec: the module `external_sort` (class
`ExternalSort`) is imported by `graph.py` but its source file is not under
`src/`.  Spec §4.5: the externally observable contract of the bounded-memory
external sort is a stable ascending sort by the lexicographic key tuple
(chunking, spilling and the k-way merge are implementation detail with no
observable effect).  Modelled as a stable sort by the extracted key. -/
def externalSort {α κ : Type} [LinearOrder κ] (keyFn : α → κ) (rows : List α) : List α :=
  rows.insertionSort fun x y => keyFn x ≤ keyFn y

/-- The mapper `Divide.__call__`: compute `row[num] / row[den]` (exact arithmetic
standing for Python numbers), assign it to the result column and yield the
row; a `ZeroDivisionError` is caught and re-raised as
`ValueError('Denominator column contains zero value')`. -/
def divideMapper (numCol denCol resCol : String) (row : Row) : Except PyErr (List Row) :=
  match row.get numCol, row.get denCol with
  | some a, some b =>
    match a, b with
    | .int na, .int nb =>
      if nb = 0 then .error (.valueError "Denominator column contains zero value")
      else .ok [row.set resCol (.rat ((na : ℚ) / (nb : ℚ)))]
    | .rat qa, .rat qb =>
      if qb = 0 then .error (.valueError "Denominator column contains zero value")
      else .ok [row.set resCol (.rat (qa / qb))]
    | .int na, .rat qb =>
      if qb = 0 then .error (.valueError "Denominator column contains zero value")
      else .ok [row.set resCol (.rat ((na : ℚ) / qb))]
    | .rat qa, .int nb =>
      if nb = 0 then .error (.valueError "Denominator column contains zero value")
      else .ok [row.set resCol (.rat (qa / (nb : ℚ)))]
    | _, _ => .error .typeError
  | none, _ => .error (.keyError numCol)
  | _, none => .error (.keyError denCol)

/-- The operations a graph node can carry (`compgraph.operations`), with the
user-supplied strategies as function fields: `Map`'s mapper flattens per
row, `Reduce`'s reducer maps a group to rows, `Join`'s joiner combines two
groups.  `ReadIterGenerator(name)` reads the named source. -/
inductive Op (α κ : Type) where
  | readIter (name : String)
  | map (mapper : α → List α)
  | reduce (reducer : List String → List α → List α) (keys : List String) (keyFn : α → κ)
  | sort (keyFn : α → κ)
  | join (joiner : List String → List α → List α → List α) (keys : List String) (keyFn : α → κ)

/-- Apply one operation to its parents' output streams and the named
sources.  `ReadIterGenerator.__call__` does `kwargs[self.name]` — a missing
name is a `KeyError`; every other operation takes its positional input
streams (a wrong arity is a `TypeError`). -/
def applyOp {α κ : Type} [LinearOrder κ] :
    Op α κ → List (List α) → (String → Option (List α)) → Except PyErr (List α)
  | .readIter n, _, src =>
    match src n with
    | none => .error (.keyError n)
    | some rows => .ok rows
  | .map m, [rows], _ => .ok (rows.flatMap m)
  | .reduce red keys keyFn, [rows], _ => reduceCall red keys keyFn rows
  | .sort keyFn, [rows], _ => .ok (externalSort keyFn rows)
  | .join j keys keyFn, [l, r], _ => joinCall j keys keyFn l r
  | _, _, _ => .error .typeError

/-- A graph node: `{operation, parents}` (`graph.Graph.__init__`). -/
inductive Graph (α κ : Type) where
  | mk (operation : Op α κ) (parents : List (Graph α κ))

/-- The node's operation. -/
def Graph.operation {α κ : Type} : Graph α κ → Op α κ
  | ⟨op, _⟩ => op

/-- The node's parents list. -/
def Graph.parents {α κ : Type} : Graph α κ → List (Graph α κ)
  | ⟨_, ps⟩ => ps

/-- The builder `Graph.copy`: a structural copy carrying the same operation and the
same parents list. -/
def Graph.copy {α κ : Type} : Graph α κ → Graph α κ
  | ⟨op, ps⟩ => ⟨op, ps⟩

/-- The builder `Graph.map(mapper)`. -/
def Graph.mapG {α κ : Type} (g : Graph α κ) (mapper : α → List α) : Graph α κ :=
  ⟨.map mapper, [g]⟩

/-- The builder `Graph.reduce(reducer, keys)`. -/
def Graph.reduceG {α κ : Type} (g : Graph α κ)
    (reducer : List String → List α → List α) (keys : List String) (keyFn : α → κ) :
    Graph α κ :=
  ⟨.reduce reducer keys keyFn, [g]⟩

/-- The builder `Graph.sort(keys)`: a new node whose operation is the external sort. -/
def Graph.sortG {α κ : Type} (g : Graph α κ) (keyFn : α → κ) : Graph α κ :=
  ⟨.sort keyFn, [g]⟩

/-- The builder `Graph.join(joiner, join_graph, keys)`. -/
def Graph.joinG {α κ : Type} (g : Graph α κ)
    (joiner : List String → List α → List α → List α) (other : Graph α κ)
    (keys : List String) (keyFn : α → κ) : Graph α κ :=
  ⟨.join joiner keys keyFn, [g, other]⟩

mutual

/-- The method `Graph.run(**kwargs)`: recursively run every parent on the same sources,
then apply this node's operation to the resulting streams. -/
def Graph.run {α κ : Type} [LinearOrder κ] (src : String → Option (List α)) :
    Graph α κ → Except PyErr (List α)
  | ⟨op, ps⟩ => do
    let ins ← Graph.runList src ps
    applyOp op ins src

/-- The eager list comprehension
`[parent.run(**kwargs) for parent in self._parents]`: run the parents left
to right, stopping at the first raised exception. -/
def Graph.runList {α κ : Type} [LinearOrder κ] (src : String → Option (List α)) :
    List (Graph α κ) → Except PyErr (List (List α))
  | [] => .ok []
  | g :: gs => do
    let out ← Graph.run src g
    let outs ← Graph.runList src gs
    .ok (out :: outs)

end

/-- One object yielded by a mapper, tagged with its identity: `sameObj v`
is the input row object itself after in-place mutation (its value now `v`),
`newObj v` is a freshly allocated row (`row.copy()` and the like). -/
inductive MOut (γ : Type) where
  | sameObj (v : γ)
  | newObj (v : γ)

/-- Commit a mapper's yields to the object store: `sameObj` writes through
the input object's cell `i` and emits that same object; `newObj` allocates
a fresh cell at the end of the store. -/
def applyOuts : List Row → Nat → List (MOut Row) → List Row × List Nat
  | store, _, [] => (store, [])
  | store, i, .sameObj v :: rest =>
    let out := applyOuts (store.set i v) i rest
    (out.1, i :: out.2)
  | store, i, .newObj v :: rest =>
    let out := applyOuts (store ++ [v]) i rest
    (out.1, store.length :: out.2)

/-- The operation `Map.__call__` over an explicit object store: the input stream is a list
of object references into `store`; each referenced row is fed to the mapper
and the yields are committed in order.  Returns the final store and the
output stream of object references. -/
def runMapStore (m : Row → Except PyErr (List (MOut Row))) :
    List Row → List Nat → Except PyErr (List Row × List Nat)
  | store, [] => .ok (store, [])
  | store, i :: is =>
    match store[i]? with
    | none => .error .runtimeError
    | some row => do
      let outs ← m row
      let s1 := applyOuts store i outs
      let rest ← runMapStore m s1.1 is
      .ok (rest.1, s1.2 ++ rest.2)

/-- Python `string.punctuation`, by character code. -/
def pythonPunctuation : List Char :=
  ((List.range' 33 15) ++ (List.range' 58 7) ++ (List.range' 91 6) ++ (List.range' 123 4)).map
    Char.ofNat

/-- Python `str.translate(str.maketrans('', '', string.punctuation))`: delete every
punctuation character. -/
def pyStripPunct (s : String) : String :=
  String.mk (s.data.filter fun c => !(pythonPunctuation.contains c))

/-- The mapper `FilterPunctuation.__call__`: assign the translated text back into the
input row's column and yield that same row object. -/
def filterPunctuationM (col : String) (row : Row) : Except PyErr (List (MOut Row)) :=
  match row.get col with
  | some (.str s) => .ok [.sameObj (row.set col (.str (pyStripPunct s)))]
  | some _ => .error .typeError
  | none => .error (.keyError col)

/-- The mapper `LowerCase.__call__`: assign the lower-cased text back into the input
row's column and yield that same row object. -/
def lowerCaseM (col : String) (row : Row) : Except PyErr (List (MOut Row)) :=
  match row.get col with
  | some (.str s) => .ok [.sameObj (row.set col (.str s.toLower))]
  | some _ => .error .typeError
  | none => .error (.keyError col)

/-- The mapper `Product.__call__`: assign 1 into the result column of the input row,
multiply the named columns into it one by one (integer columns modelled),
and yield that same row object. -/
def productM (cols : List String) (resCol : String) (row : Row) :
    Except PyErr (List (MOut Row)) := do
  let r ← cols.foldlM (fun r c =>
    match r.get resCol, r.get c with
    | some (.int a), some (.int b) => .ok (r.set resCol (.int (a * b)))
    | some _, some _ => .error .typeError
    | _, none => .error (.keyError c)
    | none, _ => .error (.keyError resCol)) (row.set resCol (.int 1))
  .ok [.sameObj r]

/-- The pure row transform `FilterPunctuation` applies to its column. -/
def filterPunctuationF (col : String) (r : Row) : Row :=
  match r.get col with
  | some (.str s) => r.set col (.str (pyStripPunct s))
  | _ => r

/-- The pure row transform `LowerCase` applies to its column. -/
def lowerCaseF (col : String) (r : Row) : Row :=
  match r.get col with
  | some (.str s) => r.set col (.str s.toLower)
  | _ => r

/-- The pure row transform `Product` applies: the result column receives
the product of the named integer columns. -/
def productF (cols : List String) (resCol : String) (r : Row) : Row :=
  r.set resCol (.int (cols.foldl (fun acc c =>
    acc * (match r.get c with | some (.int n) => n | _ => 1)) 1))

/-- The projection `itemgetter('id')` on rows with an integer `id` column: the concrete
key extractor used in the worked join examples. -/
def idKey (r : Row) : Int :=
  match r.get "id" with
  | some (.int n) => n
  | _ => 0

/-! ### Dictionary lemmas -/

theorem Row.get_set_self (r : Row) (k : String) (w : Value) :
    (r.set k w).get k = some w := by
  induction r with
  | nil => simp [Row.set, Row.get]
  | cons kv r ih =>
    obtain ⟨k', v⟩ := kv
    by_cases h : k' = k <;> simp [Row.set, Row.get, h, ih]

theorem Row.get_set_ne (r : Row) {k q : String} (w : Value) (h : k ≠ q) :
    (r.set k w).get q = r.get q := by
  induction r with
  | nil => simp [Row.set, Row.get, h]
  | cons kv r ih =>
    obtain ⟨k', v⟩ := kv
    by_cases h' : k' = k
    · subst h'
      simp [Row.set, Row.get, h]
    · simp [Row.set, Row.get, h', ih]

theorem Row.get_del_ne (r : Row) {k q : String} (h : k ≠ q) :
    (r.del k).get q = r.get q := by
  induction r with
  | nil => simp [Row.del, Row.get]
  | cons kv r ih =>
    obtain ⟨k', v⟩ := kv
    by_cases h' : k' = k
    · subst h'
      simp [Row.del, Row.get, h, ih]
    · simp [Row.del, Row.get, h', ih]

theorem Row.get_eq_none_of_not_mem {r : Row} {q : String} (h : q ∉ r.keys) :
    r.get q = none := by
  induction r with
  | nil => simp [Row.get]
  | cons kv r ih =>
    obtain ⟨k', v⟩ := kv
    simp only [Row.keys, List.map_cons, List.mem_cons, not_or] at h
    have hne : k' ≠ q := fun hh => h.1 hh.symm
    simp [Row.get, hne, ih (by simpa [Row.keys] using h.2)]

theorem Row.get_del_self (r : Row) (k : String) (h : r.keys.Nodup) :
    (r.del k).get k = none := by
  induction r with
  | nil => simp [Row.del, Row.get]
  | cons kv r ih =>
    obtain ⟨k', v⟩ := kv
    simp only [Row.keys, List.map_cons, List.nodup_cons] at h
    by_cases h' : k' = k
    · subst h'
      simp only [Row.del, if_pos rfl]
      exact Row.get_eq_none_of_not_mem (by simpa [Row.keys] using h.1)
    · simp [Row.del, Row.get, h', ih h.2]

theorem Row.mem_keys_set (r : Row) (k q : String) (w : Value) :
    q ∈ (r.set k w).keys ↔ q ∈ r.keys ∨ q = k := by
  induction r with
  | nil => simp [Row.set, Row.keys, eq_comm]
  | cons kv r ih =>
    obtain ⟨k', v⟩ := kv
    by_cases h : k' = k
    · subst h
      simp [Row.set, Row.keys]
      tauto
    · simp only [Row.set, if_neg h, Row.keys, List.map_cons, List.mem_cons]
      simp only [Row.keys] at ih
      rw [ih]
      tauto

theorem Row.mem_keys_del (r : Row) (k q : String) :
    q ∈ (r.del k).keys → q ∈ r.keys := by
  induction r with
  | nil => simp [Row.del]
  | cons kv r ih =>
    obtain ⟨k', v⟩ := kv
    by_cases h : k' = k
    · subst h
      simp only [Row.del, if_pos rfl, Row.keys, List.map_cons, List.mem_cons]
      tauto
    · simp only [Row.del, if_neg h, Row.keys, List.map_cons, List.mem_cons]
      rintro (h' | h')
      · exact Or.inl h'
      · exact Or.inr (ih h')

theorem Row.nodup_keys_set (r : Row) (k : String) (w : Value) (h : r.keys.Nodup) :
    (r.set k w).keys.Nodup := by
  induction r with
  | nil => simp [Row.set, Row.keys]
  | cons kv r ih =>
    obtain ⟨k', v⟩ := kv
    simp only [Row.keys, List.map_cons, List.nodup_cons] at h
    by_cases h' : k' = k
    · subst h'
      simpa [Row.set, Row.keys] using h
    · simp only [Row.set, if_neg h', Row.keys, List.map_cons, List.nodup_cons]
      refine ⟨fun hm => ?_, ih h.2⟩
      rcases (Row.mem_keys_set r k k' w).mp hm with hm' | hm'
      · exact h.1 hm'
      · exact h' hm'

theorem Row.nodup_keys_del (r : Row) (k : String) (h : r.keys.Nodup) :
    (r.del k).keys.Nodup := by
  induction r with
  | nil => simp [Row.del, Row.keys]
  | cons kv r ih =>
    obtain ⟨k', v⟩ := kv
    simp only [Row.keys, List.map_cons, List.nodup_cons] at h
    by_cases h' : k' = k
    · subst h'
      simpa [Row.del, Row.keys] using h.2
    · simp only [Row.del, if_neg h', Row.keys, List.map_cons, List.nodup_cons]
      exact ⟨fun hm => h.1 (Row.mem_keys_del r k k' hm), ih h.2⟩

theorem Row.get_of_mem {r : Row} {q : String} {v : Value} (h : (q, v) ∈ r)
    (hnd : r.keys.Nodup) : r.get q = some v := by
  induction r with
  | nil => exact (List.not_mem_nil _ h).elim
  | cons kv r ih =>
    obtain ⟨k', v'⟩ := kv
    simp only [Row.keys, List.map_cons, List.nodup_cons] at hnd
    rcases List.mem_cons.mp h with h' | h'
    · cases h'
      simp [Row.get]
    · have hne : k' ≠ q := by
        rintro rfl
        exact hnd.1 (by simpa [Row.keys] using List.mem_map_of_mem Prod.fst h')
      simp [Row.get, hne, ih h' hnd.2]

theorem Row.mem_keys_of_mem {r : Row} {q : String} {v : Value} (h : (q, v) ∈ r) :
    q ∈ r.keys :=
  by simpa [Row.keys] using List.mem_map_of_mem Prod.fst h

/-! ### String-suffix lemmas -/

theorem String.append_cancel_right {a b s : String} (h : a ++ s = b ++ s) : a = b := by
  apply String.ext
  have h' : a.data ++ s.data = b.data ++ s.data := by
    simpa [String.data_append] using congrArg String.data h
  exact List.append_cancel_right h'

theorem String.append_cancel_left {s a b : String} (h : s ++ a = s ++ b) : a = b := by
  apply String.ext
  have h' : s.data ++ a.data = s.data ++ b.data := by
    simpa [String.data_append] using congrArg String.data h
  exact List.append_cancel_left h'

theorem suffix12_ne (k q : String) : k ++ "_1" ≠ q ++ "_2" := by
  intro h
  have h' : k.data ++ ['_', '1'] = q.data ++ ['_', '2'] := by
    simpa [String.data_append] using congrArg String.data h
  have h'' := congrArg List.reverse h'
  simp [List.reverse_append] at h''

theorem suffix21_ne (k q : String) : k ++ "_2" ≠ q ++ "_1" := by
  intro h
  exact suffix12_ne q k h.symm

/-! ### Combine-primitive lemmas -/

theorem get_joinStep_untouched (keys : List String) (sA sB : String) (d : Row)
    (kv : String × Value) {q : String} (hne : kv.1 ≠ q) (hA : kv.1 ++ sA ≠ q)
    (hB : kv.1 ++ sB ≠ q) : (joinStep keys sA sB d kv).get q = d.get q := by
  unfold joinStep
  cases hd : d.get kv.1 with
  | none => exact Row.get_set_ne d kv.2 hne
  | some old =>
    by_cases hk : kv.1 ∈ keys
    · simp [hk]
    · simp only [hk, if_neg, if_false]
      rw [Row.get_set_ne _ old hB, Row.get_set_ne _ kv.2 hA, Row.get_del_ne d hne]

theorem get_foldl_joinStep_untouched (keys : List String) (sA sB : String)
    (l : List (String × Value)) {q : String}
    (h : ∀ kv ∈ l, kv.1 ≠ q ∧ kv.1 ++ sA ≠ q ∧ kv.1 ++ sB ≠ q) (d : Row) :
    (l.foldl (joinStep keys sA sB) d).get q = d.get q := by
  induction l generalizing d with
  | nil => rfl
  | cons kv l ih =>
    have hkv := h kv (List.mem_cons_self kv l)
    rw [List.foldl_cons, ih (fun kv' hm => h kv' (List.mem_cons_of_mem kv hm)),
      get_joinStep_untouched keys sA sB d kv hkv.1 hkv.2.1 hkv.2.2]

theorem nodup_keys_joinStep (keys : List String) (sA sB : String) (d : Row)
    (kv : String × Value) (h : d.keys.Nodup) :
    (joinStep keys sA sB d kv).keys.Nodup := by
  unfold joinStep
  cases hd : d.get kv.1 with
  | none => exact Row.nodup_keys_set d kv.1 kv.2 h
  | some old =>
    by_cases hk : kv.1 ∈ keys
    · simpa [hk] using h
    · simp only [hk, if_neg, if_false]
      exact Row.nodup_keys_set _ _ old (Row.nodup_keys_set _ _ kv.2 (Row.nodup_keys_del d kv.1 h))

theorem nodup_keys_foldl_joinStep (keys : List String) (sA sB : String)
    (l : List (String × Value)) (d : Row) (h : d.keys.Nodup) :
    (l.foldl (joinStep keys sA sB) d).keys.Nodup := by
  induction l generalizing d with
  | nil => exact h
  | cons kv l ih => exact List.foldl_cons _ _ ▸ ih _ (nodup_keys_joinStep keys sA sB d kv h)

/-- The per-key merge rule of `common_join_part`, read off the final row:
for a key `q` of the left row (with suffixed column names fresh), a key
absent from the right row is added with the left value; a colliding join
key keeps the right row's value; a colliding non-join key is removed and
replaced by its two suffixed bindings. -/
theorem mergeRow_get (keys : List String) (sA sB : String) (lrow rrow : Row)
    (hsAB : sA ≠ sB)
    (hndl : lrow.keys.Nodup) (hndr : rrow.keys.Nodup)
    (hfresh : ∀ k ∈ lrow.keys, ∀ k' ∈ lrow.keys ++ rrow.keys, k ++ sA ≠ k' ∧ k ++ sB ≠ k')
    (hcross : ∀ k ∈ lrow.keys, ∀ k' ∈ lrow.keys, k ++ sA ≠ k' ++ sB)
    (q : String) (v : Value) (hq : (q, v) ∈ lrow) :
    (rrow.get q = none → (mergeRow keys sA sB lrow rrow).get q = some v)
    ∧ (∀ w, rrow.get q = some w → q ∈ keys →
        (mergeRow keys sA sB lrow rrow).get q = some w)
    ∧ (∀ w, rrow.get q = some w → q ∉ keys →
        (mergeRow keys sA sB lrow rrow).get q = none
        ∧ (mergeRow keys sA sB lrow rrow).get (q ++ sA) = some v
        ∧ (mergeRow keys sA sB lrow rrow).get (q ++ sB) = some w) := by
  obtain ⟨pre, post, rfl⟩ := List.append_of_mem hq
  have hqmem : q ∈ Row.keys (pre ++ (q, v) :: post) := Row.mem_keys_of_mem hq
  have hkeys : Row.keys (pre ++ (q, v) :: post) = Row.keys pre ++ q :: Row.keys post := by
    simp [Row.keys]
  rw [hkeys] at hndl
  have hqpre : q ∉ Row.keys pre := fun hm =>
    (List.nodup_append.mp hndl).2.2 hm (List.mem_cons_self q (Row.keys post))
  have hnd2 := (List.nodup_append.mp hndl).2.1
  have hqpost : q ∉ Row.keys post := (List.nodup_cons.mp hnd2).1
  have hsub : ∀ k' ∈ Row.keys pre ++ Row.keys post, k' ∈ Row.keys (pre ++ (q, v) :: post) := by
    intro k' hm
    rw [hkeys]
    rcases List.mem_append.mp hm with hm | hm
    · exact List.mem_append_left _ hm
    · exact List.mem_append_right _ (List.mem_cons_of_mem q hm)
  -- the fold over the left row splits at the binding of `q`
  have hsplit : mergeRow keys sA sB (pre ++ (q, v) :: post) rrow =
      post.foldl (joinStep keys sA sB)
        (joinStep keys sA sB (pre.foldl (joinStep keys sA sB) rrow) (q, v)) := by
    simp [mergeRow, List.foldl_append]
  -- the fold over `pre` does not touch `q`
  have hpre : ∀ kv ∈ pre, kv.1 ≠ q ∧ kv.1 ++ sA ≠ q ∧ kv.1 ++ sB ≠ q := by
    intro kv hm
    have hk : kv.1 ∈ Row.keys pre := Row.mem_keys_of_mem hm
    have hkl : kv.1 ∈ Row.keys (pre ++ (q, v) :: post) :=
      hsub kv.1 (List.mem_append_left _ hk)
    refine ⟨fun hh => hqpre (hh ▸ hk), ?_, ?_⟩
    · exact (hfresh kv.1 hkl q (List.mem_append_left _ hqmem)).1
    · exact (hfresh kv.1 hkl q (List.mem_append_left _ hqmem)).2
  have hd1 : (pre.foldl (joinStep keys sA sB) rrow).get q = rrow.get q :=
    get_foldl_joinStep_untouched keys sA sB pre hpre rrow
  have hd1nd : (pre.foldl (joinStep keys sA sB) rrow).keys.Nodup :=
    nodup_keys_foldl_joinStep keys sA sB pre rrow hndr
  set d1 := pre.foldl (joinStep keys sA sB) rrow with hd1def
  -- the fold over `post` does not touch `q`, `q ++ sA` or `q ++ sB`
  have hpostq : ∀ kv ∈ post, kv.1 ≠ q ∧ kv.1 ++ sA ≠ q ∧ kv.1 ++ sB ≠ q := by
    intro kv hm
    have hk : kv.1 ∈ Row.keys post := Row.mem_keys_of_mem hm
    have hkl : kv.1 ∈ Row.keys (pre ++ (q, v) :: post) :=
      hsub kv.1 (List.mem_append_right _ hk)
    refine ⟨fun hh => hqpost (hh ▸ hk), ?_, ?_⟩
    · exact (hfresh kv.1 hkl q (List.mem_append_left _ hqmem)).1
    · exact (hfresh kv.1 hkl q (List.mem_append_left _ hqmem)).2
  have hpostA : ∀ kv ∈ post, kv.1 ≠ q ++ sA ∧ kv.1 ++ sA ≠ q ++ sA ∧ kv.1 ++ sB ≠ q ++ sA := by
    intro kv hm
    have hk : kv.1 ∈ Row.keys post := Row.mem_keys_of_mem hm
    have hkl : kv.1 ∈ Row.keys (pre ++ (q, v) :: post) :=
      hsub kv.1 (List.mem_append_right _ hk)
    refine ⟨?_, ?_, ?_⟩
    · exact fun hh => (hfresh q hqmem kv.1 (List.mem_append_left _ hkl)).1 hh.symm
    · intro hh
      have : kv.1 = q := String.append_cancel_right hh
      exact hqpost (this ▸ hk)
    · exact fun hh => hcross q hqmem kv.1 hkl hh.symm
  have hpostB : ∀ kv ∈ post, kv.1 ≠ q ++ sB ∧ kv.1 ++ sA ≠ q ++ sB ∧ kv.1 ++ sB ≠ q ++ sB := by
    intro kv hm
    have hk : kv.1 ∈ Row.keys post := Row.mem_keys_of_mem hm
    have hkl : kv.1 ∈ Row.keys (pre ++ (q, v) :: post) :=
      hsub kv.1 (List.mem_append_right _ hk)
    refine ⟨?_, ?_, ?_⟩
    · exact fun hh => (hfresh q hqmem kv.1 (List.mem_append_left _ hkl)).2 hh.symm
    · exact fun hh => hcross kv.1 hkl q hqmem hh
    · intro hh
      have : kv.1 = q := String.append_cancel_right hh
      exact hqpost (this ▸ hk)
  refine ⟨?_, ?_, ?_⟩
  · -- `q` absent from the right row: bound to the left value
    intro hnone
    rw [hsplit, get_foldl_joinStep_untouched keys sA sB post hpostq]
    unfold joinStep
    simp only [hd1, hnone]
    exact Row.get_set_self d1 q v
  · -- collision on a join key: the right row's value is kept
    intro w hw hkq
    rw [hsplit, get_foldl_joinStep_untouched keys sA sB post hpostq]
    unfold joinStep
    simp only [hd1, hw, hkq, if_pos]
  · -- collision on a non-join key: removed and replaced by suffixed bindings
    intro w hw hkq
    have hqA : q ++ sB ≠ q ++ sA := fun hh => hsAB (String.append_cancel_left hh).symm
    have hqAq : q ++ sA ≠ q := (hfresh q hqmem q (List.mem_append_left _ hqmem)).1
    have hqBq : q ++ sB ≠ q := (hfresh q hqmem q (List.mem_append_left _ hqmem)).2
    refine ⟨?_, ?_, ?_⟩
    · rw [hsplit, get_foldl_joinStep_untouched keys sA sB post hpostq]
      unfold joinStep
      simp only [hd1, hw, hkq, if_neg, if_false]
      rw [Row.get_set_ne _ w hqBq, Row.get_set_ne _ v hqAq]
      exact Row.get_del_self d1 q hd1nd
    · rw [hsplit, get_foldl_joinStep_untouched keys sA sB post hpostA]
      unfold joinStep
      simp only [hd1, hw, hkq, if_neg, if_false]
      rw [Row.get_set_ne _ w hqA]
      exact Row.get_set_self _ (q ++ sA) v
    · rw [hsplit, get_foldl_joinStep_untouched keys sA sB post hpostB]
      unfold joinStep
      simp only [hd1, hw, hkq, if_neg, if_false]
      exact Row.get_set_self _ (q ++ sB) w

/-- Keys of the right row not named by the left row (nor by a suffixed
rename) are untouched: the produced row really starts as a copy of `rrow`. -/
theorem mergeRow_get_untouched (keys : List String) (sA sB : String) (lrow rrow : Row)
    (q : String) (hq : q ∉ lrow.keys)
    (hfq : ∀ k ∈ lrow.keys, k ++ sA ≠ q ∧ k ++ sB ≠ q) :
    (mergeRow keys sA sB lrow rrow).get q = rrow.get q := by
  refine get_foldl_joinStep_untouched keys sA sB lrow (fun kv hm => ?_) rrow
  have hk : kv.1 ∈ lrow.keys := Row.mem_keys_of_mem hm
  exact ⟨fun hh => hq (hh ▸ hk), (hfq kv.1 hk).1, (hfq kv.1 hk).2⟩

/-! ### Safe-groupby lemmas -/

theorem checkSorted_error_unsorted {α κ : Type} [LinearOrder κ] {prev : κ}
    {gs : List (κ × List α)} {e : PyErr} (h : checkSorted prev gs = .error e) :
    e = unsortedErr := by
  induction gs generalizing prev e with
  | nil => simp [checkSorted] at h
  | cons hd gs ih =>
    obtain ⟨k, g⟩ := hd
    by_cases hgt : prev > k
    · simp only [checkSorted, if_pos hgt, Except.error.injEq] at h
      exact h.symm
    · simp only [checkSorted, if_neg hgt] at h
      cases hcs : checkSorted (α := α) k gs with
      | error e' =>
        rw [hcs] at h
        have h' : (Except.error e' : Except PyErr (List (κ × List α))) = .error e := h
        injection h' with he
        exact he ▸ ih hcs
      | ok rest =>
        rw [hcs] at h
        have h' : (Except.ok ((k, g) :: rest) : Except PyErr (List (κ × List α))) = .error e := h
        exact Except.noConfusion h'

/-- Splitting an adjacent pair out of a cons cell. -/
theorem adjacent_split_cons {γ : Type} (x : γ) (gs : List γ) (P : γ → γ → Prop) :
    (∃ pre a b post, x :: gs = pre ++ a :: b :: post ∧ P a b) ↔
      ((∃ b post, gs = b :: post ∧ P x b) ∨
        (∃ pre a b post, gs = pre ++ a :: b :: post ∧ P a b)) := by
  constructor
  · rintro ⟨pre, a, b, post, heq, hP⟩
    cases pre with
    | nil =>
      simp only [List.nil_append, List.cons.injEq] at heq
      obtain ⟨rfl, rfl⟩ := heq
      exact Or.inl ⟨b, post, rfl, hP⟩
    | cons p pre =>
      simp only [List.cons_append, List.cons.injEq] at heq
      exact Or.inr ⟨pre, a, b, post, heq.2, hP⟩
  · rintro (⟨b, post, rfl, hP⟩ | ⟨pre, a, b, post, rfl, hP⟩)
    · exact ⟨[], x, b, post, rfl, hP⟩
    · exact ⟨x :: pre, a, b, post, rfl, hP⟩

theorem checkSorted_error_iff {α κ : Type} [LinearOrder κ] (prev : κ)
    (gs : List (κ × List α)) :
    checkSorted prev gs = .error unsortedErr ↔
      ((∃ a gs', gs = a :: gs' ∧ a.1 < prev) ∨
        (∃ pre a b post, gs = pre ++ a :: b :: post ∧ b.1 < a.1)) := by
  induction gs generalizing prev with
  | nil =>
    simp only [checkSorted]
    constructor
    · intro h
      simp at h
    · rintro (⟨a, gs', h, _⟩ | ⟨pre, a, b, post, h, _⟩) <;> simp at h
  | cons hd gs ih =>
    obtain ⟨k, g⟩ := hd
    by_cases hgt : prev > k
    · simp only [checkSorted, if_pos hgt]
      constructor
      · intro _
        exact Or.inl ⟨(k, g), gs, rfl, hgt⟩
      · intro _
        trivial
    · simp only [checkSorted, if_neg hgt]
      have hstep : (do
          let rest ← checkSorted (α := α) k gs
          (.ok ((k, g) :: rest) : Except PyErr (List (κ × List α)))) = .error unsortedErr ↔
          checkSorted (α := α) k gs = .error unsortedErr := by
        cases hcs : checkSorted (α := α) k gs with
        | error e =>
          have : e = unsortedErr := checkSorted_error_unsorted hcs
          subst this
          exact ⟨fun _ => rfl, fun _ => rfl⟩
        | ok rest =>
          constructor
          · intro h
            have h' : (Except.ok ((k, g) :: rest) :
                Except PyErr (List (κ × List α))) = .error unsortedErr := h
            exact Except.noConfusion h'
          · intro h
            exact Except.noConfusion h
      rw [hstep, ih]
      constructor
      · rintro (⟨a, gs', rfl, hlt⟩ | ⟨pre, a, b, post, rfl, hlt⟩)
        · exact Or.inr ⟨[], (k, g), a, gs', rfl, hlt⟩
        · exact Or.inr ⟨(k, g) :: pre, a, b, post, rfl, hlt⟩
      · rintro (⟨a, gs', heq, hlt⟩ | hrest)
        · simp only [List.cons.injEq] at heq
          obtain ⟨rfl, _⟩ := heq
          exact absurd hlt hgt
        · rcases (adjacent_split_cons (k, g) gs fun a b => b.1 < a.1).mp hrest with
            ⟨b, post, rfl, hlt⟩ | ⟨pre, a, b, post, rfl, hlt⟩
          · exact Or.inl ⟨b, post, rfl, hlt⟩
          · exact Or.inr ⟨pre, a, b, post, rfl, hlt⟩

/-! ### Merge-loop lemmas -/

theorem joinLoop_eq_mergeGroupsSpec_aux {α κ β : Type} [LinearOrder κ]
    (joiner : List String → List α → List α → List β) (keys : List String) :
    ∀ (n : Nat) (ls rs : List (κ × List α)), ls.length + rs.length ≤ n →
      joinLoop joiner keys ls.head? rs.head? ls.tail rs.tail =
        mergeGroupsSpec joiner keys ls rs := by
  intro n
  induction n with
  | zero =>
    intro ls rs h
    obtain rfl : ls = [] := by cases ls <;> simp_all
    obtain rfl : rs = [] := by cases rs <;> simp_all
    simp only [List.head?_nil, List.tail_nil]
    rw [joinLoop, mergeGroupsSpec]
  | succ n ih =>
    intro ls rs h
    match ls, rs with
    | [], [] =>
      simp only [List.head?_nil, List.tail_nil]
      rw [joinLoop, mergeGroupsSpec]
    | (kl, gl) :: ls, [] =>
      simp only [List.head?_cons, List.tail_cons, List.head?_nil, List.tail_nil,
        List.length_cons, List.length_nil] at h ⊢
      rw [joinLoop, mergeGroupsSpec]
      rw [← ih ls [] (by simp only [List.length_nil]; omega)]
      simp
    | [], (kr, gr) :: rs =>
      simp only [List.head?_cons, List.tail_cons, List.head?_nil, List.tail_nil,
        List.length_cons, List.length_nil] at h ⊢
      rw [joinLoop, mergeGroupsSpec]
      rw [← ih [] rs (by simp only [List.length_nil]; omega)]
      simp
    | (kl, gl) :: ls, (kr, gr) :: rs =>
      simp only [List.head?_cons, List.tail_cons, List.length_cons] at h ⊢
      rw [joinLoop, mergeGroupsSpec]
      by_cases he : kl = kr
      · simp only [if_pos he]
        rw [← ih ls rs (by omega)]
      · by_cases hgt : kl > kr
        · simp only [if_neg he, if_pos hgt]
          rw [← ih ((kl, gl) :: ls) rs (by simp only [List.length_cons]; omega)]
          simp
        · simp only [if_neg he, if_neg hgt]
          rw [← ih ls ((kr, gr) :: rs) (by simp only [List.length_cons]; omega)]
          simp

/-- The source merge loop, started the way `Join.__call__` starts it (one
`next` on each side), computes the spec-level group merge. -/
theorem joinLoop_eq_mergeGroupsSpec {α κ β : Type} [LinearOrder κ]
    (joiner : List String → List α → List α → List β) (keys : List String)
    (ls rs : List (κ × List α)) :
    joinLoop joiner keys ls.head? rs.head? ls.tail rs.tail =
      mergeGroupsSpec joiner keys ls rs :=
  joinLoop_eq_mergeGroupsSpec_aux joiner keys (ls.length + rs.length) ls rs le_rfl

/-! ### Sort lemmas -/

theorem filter_orderedInsert {α κ : Type} [LinearOrder κ] (keyFn : α → κ) (k : κ)
    (a : α) (s : List α) :
    ((s.orderedInsert (fun x y => keyFn x ≤ keyFn y) a).filter
        fun x => decide (keyFn x = k)) =
      if keyFn a = k then a :: s.filter (fun x => decide (keyFn x = k))
      else s.filter fun x => decide (keyFn x = k) := by
  rw [List.orderedInsert_eq_take_drop, List.filter_append]
  by_cases hk : keyFn a = k
  · rw [if_pos hk]
    have htake : ((s.takeWhile fun b => decide ¬(keyFn a ≤ keyFn b)).filter
        fun x => decide (keyFn x = k)) = [] := by
      rw [List.filter_eq_nil_iff]
      intro b hb
      have hmem := List.mem_takeWhile_imp hb
      simp only [decide_eq_true_eq] at hmem ⊢
      intro hbk
      exact hmem (le_of_eq (hk.trans hbk.symm))
    rw [htake, List.nil_append, List.filter_cons, if_pos (by simpa using hk)]
    have hsplit : (s.filter fun x => decide (keyFn x = k)) =
        ((s.takeWhile fun b => decide ¬(keyFn a ≤ keyFn b)) ++
          s.dropWhile fun b => decide ¬(keyFn a ≤ keyFn b)).filter
            fun x => decide (keyFn x = k) := by
      rw [List.takeWhile_append_dropWhile]
    rw [hsplit, List.filter_append, htake, List.nil_append]
  · rw [if_neg hk, List.filter_cons, if_neg (by simpa using hk)]
    have hsplit : (s.filter fun x => decide (keyFn x = k)) =
        ((s.takeWhile fun b => decide ¬(keyFn a ≤ keyFn b)) ++
          s.dropWhile fun b => decide ¬(keyFn a ≤ keyFn b)).filter
            fun x => decide (keyFn x = k) := by
      rw [List.takeWhile_append_dropWhile]
    rw [hsplit, List.filter_append]

/-- Stability of the (spec-modelled) external sort: the subsequence of rows
with any fixed key value is exactly the input's subsequence. -/
theorem externalSort_filter_eq {α κ : Type} [LinearOrder κ] (keyFn : α → κ)
    (rows : List α) (k : κ) :
    ((externalSort keyFn rows).filter fun x => decide (keyFn x = k)) =
      rows.filter fun x => decide (keyFn x = k) := by
  induction rows with
  | nil => rfl
  | cons a l ih =>
    show ((List.orderedInsert _ a (externalSort keyFn l)).filter _) = _
    rw [filter_orderedInsert keyFn k a (externalSort keyFn l), List.filter_cons]
    by_cases hk : keyFn a = k
    · rw [if_pos hk, ih, if_pos (by simpa using hk)]
    · rw [if_neg hk, ih, if_neg (by simpa using hk)]

theorem externalSort_sorted {α κ : Type} [LinearOrder κ] (keyFn : α → κ) (rows : List α) :
    ((externalSort keyFn rows).map keyFn).Sorted (· ≤ ·) := by
  haveI : IsTotal α fun x y => keyFn x ≤ keyFn y := ⟨fun a b => le_total _ _⟩
  haveI : IsTrans α fun x y => keyFn x ≤ keyFn y := ⟨fun a b c hab hbc => le_trans hab hbc⟩
  have hs : (externalSort keyFn rows).Sorted fun x y => keyFn x ≤ keyFn y :=
    List.sorted_insertionSort _ _
  exact List.pairwise_map.mpr hs

theorem externalSort_perm {α κ : Type} [LinearOrder κ] (keyFn : α → κ) (rows : List α) :
    (externalSort keyFn rows).Perm rows :=
  List.perm_insertionSort _ _

/-! ### Graph-run lemmas -/

theorem Row.set_set_self (r : Row) (k : String) (a b : Value) :
    (r.set k a).set k b = r.set k b := by
  induction r with
  | nil => simp [Row.set]
  | cons kv r ih =>
    obtain ⟨k', v⟩ := kv
    by_cases h : k' = k <;> simp [Row.set, h, ih]

/-- Running `Map` over the object store with a mapper that mutates its row
in place and yields it: the output stream is exactly the input object
references, and the store cells referenced by the input are overwritten
with the transformed rows. -/
theorem runMapStore_sameObj (m : Row → Except PyErr (List (MOut Row))) (f : Row → Row)
    (P : Row → Prop) (hm : ∀ r, P r → m r = .ok [.sameObj (f r)]) :
    ∀ (ids : List Nat) (store : List Row), ids.Nodup →
      (∀ i ∈ ids, ∃ r, store[i]? = some r ∧ P r) →
      ∃ store', runMapStore m store ids = .ok (store', ids)
        ∧ store'.length = store.length
        ∧ (∀ i ∈ ids, store'[i]? = Option.map f store[i]?)
        ∧ (∀ j, j ∉ ids → store'[j]? = store[j]?) := by
  intro ids
  induction ids with
  | nil =>
    intro store _ _
    exact ⟨store, rfl, rfl, by simp, fun j _ => rfl⟩
  | cons i is ih =>
    intro store hnd hv
    obtain ⟨r, hr, hPr⟩ := hv i (List.mem_cons_self i is)
    have hmr := hm r hPr
    have hnd' := List.nodup_cons.mp hnd
    have hv' : ∀ j ∈ is, ∃ r', (store.set i (f r))[j]? = some r' ∧ P r' := by
      intro j hj
      have hji : i ≠ j := fun hh => hnd'.1 (hh ▸ hj)
      rw [List.getElem?_set_ne hji]
      exact hv j (List.mem_cons_of_mem i hj)
    obtain ⟨store', hrun, hlen, hin, hout⟩ := ih (store.set i (f r)) hnd'.2 hv'
    have hstep : runMapStore m store (i :: is) = .ok (store', i :: is) := by
      rw [runMapStore, hr]
      show (do
        let outs ← m r
        let s1 := applyOuts store i outs
        let rest ← runMapStore m s1.1 is
        (.ok (rest.1, s1.2 ++ rest.2) : Except PyErr (List Row × List Nat))) = _
      rw [hmr]
      show (do
        let rest ← runMapStore m (applyOuts store i [.sameObj (f r)]).1 is
        (.ok (rest.1, (applyOuts store i [.sameObj (f r)]).2 ++ rest.2) :
          Except PyErr (List Row × List Nat))) = _
      have happ : applyOuts store i [.sameObj (f r)] = (store.set i (f r), [i]) := by
        simp [applyOuts]
      rw [happ, hrun]
      rfl
    refine ⟨store', hstep, by rw [hlen, List.length_set], ?_, ?_⟩
    · intro j hj
      rcases List.mem_cons.mp hj with rfl | hj'
      · rw [hout j hnd'.1, List.getElem?_set_self', hr]
        rfl
      · have hij : i ≠ j := fun hh => hnd'.1 (by rw [hh]; exact hj')
        rw [hin j hj', List.getElem?_set_ne hij]
    · intro j hj
      simp only [List.mem_cons, not_or] at hj
      have hij : i ≠ j := fun hh => hj.1 hh.symm
      rw [hout j hj.2, List.getElem?_set_ne hij]

theorem filterPunctuationM_eq (col : String) (row : Row) (s : String)
    (h : row.get col = some (.str s)) :
    filterPunctuationM col row = .ok [.sameObj (filterPunctuationF col row)] := by
  simp [filterPunctuationM, filterPunctuationF, h]

theorem lowerCaseM_eq (col : String) (row : Row) (s : String)
    (h : row.get col = some (.str s)) :
    lowerCaseM col row = .ok [.sameObj (lowerCaseF col row)] := by
  simp [lowerCaseM, lowerCaseF, h]

theorem productM_foldl_aux (cols : List String) (resCol : String) (row : Row)
    (hres : resCol ∉ cols)
    (hvals : ∀ c ∈ cols, ∃ n : Int, row.get c = some (.int n)) :
    ∀ acc : Int,
      (cols.foldlM (fun r c =>
        match r.get resCol, r.get c with
        | some (.int a), some (.int b) => .ok (r.set resCol (.int (a * b)))
        | some _, some _ => .error .typeError
        | _, none => .error (.keyError c)
        | none, _ => .error (.keyError resCol)) (row.set resCol (.int acc)) :
          Except PyErr Row) =
        .ok (row.set resCol (.int (cols.foldl (fun a c =>
          a * (match row.get c with | some (.int n) => n | _ => 1)) acc))) := by
  induction cols with
  | nil => intro acc; rfl
  | cons c cols ih =>
    intro acc
    simp only [List.mem_cons, not_or] at hres
    obtain ⟨n, hn⟩ := hvals c (List.mem_cons_self c cols)
    have hne : resCol ≠ c := hres.1
    rw [List.foldlM_cons]
    have hgetres : (row.set resCol (.int acc)).get resCol = some (.int acc) :=
      Row.get_set_self row resCol (.int acc)
    have hgetc : (row.set resCol (.int acc)).get c = some (.int n) := by
      rw [Row.get_set_ne row _ hne, hn]
    rw [hgetres, hgetc]
    show (cols.foldlM _ ((row.set resCol (.int acc)).set resCol (.int (acc * n))) :
        Except PyErr Row) = _
    rw [Row.set_set_self row resCol (.int acc) (.int (acc * n))]
    rw [ih (fun hm => hres.2 hm) (fun c' hc' => hvals c' (List.mem_cons_of_mem c hc')) (acc * n)]
    rw [List.foldl_cons, hn]

theorem productM_eq (cols : List String) (resCol : String) (row : Row)
    (hres : resCol ∉ cols)
    (hvals : ∀ c ∈ cols, ∃ n : Int, row.get c = some (.int n)) :
    productM cols resCol row = .ok [.sameObj (productF cols resCol row)] := by
  unfold productM productF
  rw [productM_foldl_aux cols resCol row hres hvals 1]
  rfl

/-- The operation `Join.__call__` on inputs whose safe-groupby passes succeed computes
the spec-level group merge. -/
theorem joinCall_eq_mergeGroupsSpec {α κ β : Type} [LinearOrder κ]
    (joiner : List String → List α → List α → List β) (keys : List String)
    (keyFn : α → κ) (L R : List α) (gl gr : List (κ × List α))
    (hk : keys ≠ []) (hL : safeGroupby keyFn L = .ok gl)
    (hR : safeGroupby keyFn R = .ok gr) :
    joinCall joiner keys keyFn L R = .ok (mergeGroupsSpec joiner keys gl gr) := by
  unfold joinCall
  rw [if_neg hk, hL, hR]
  show Except.ok (joinLoop joiner keys gl.head? gr.head? gl.tail gr.tail) = _
  rw [joinLoop_eq_mergeGroupsSpec]

/-! ### Claim theorems -/

/-- C3: for every input stream and non-empty key tuple, the safe-groupby
iteration shared by Reduce and Join raises the unsorted-input error
(`ValueError('Stream is not sorted by keys')`) if and only if some pair of
adjacent groups of the stream has a strictly decreasing key transition;
nondecreasing transitions never raise it (on an empty stream the failure is
a different error, `RuntimeError`, not the unsorted-input one). -/
theorem claim_C3 {α κ : Type} [LinearOrder κ] (keyFn : α → κ) (rows : List α) :
    safeGroupby keyFn rows = .error unsortedErr ↔
      ∃ pre a b post, pyGroupby keyFn rows = pre ++ a :: b :: post ∧ b.1 < a.1 := by
  unfold safeGroupby
  cases hg : pyGroupby keyFn rows with
  | nil =>
    constructor
    · intro h
      simp [unsortedErr] at h
    · rintro ⟨pre, a, b, post, h, _⟩
      cases pre <;> simp at h
  | cons hd gs =>
    obtain ⟨k, g⟩ := hd
    have hstep : (do
        let rest ← checkSorted (α := α) k gs
        (.ok ((k, g) :: rest) : Except PyErr (List (κ × List α)))) = .error unsortedErr ↔
        checkSorted (α := α) k gs = .error unsortedErr := by
      cases hcs : checkSorted (α := α) k gs with
      | error e =>
        have he : e = unsortedErr := checkSorted_error_unsorted hcs
        subst he
        exact ⟨fun _ => rfl, fun _ => rfl⟩
      | ok rest =>
        constructor
        · intro h
          exact Except.noConfusion (show (Except.ok ((k, g) :: rest) :
            Except PyErr (List (κ × List α))) = .error unsortedErr from h)
        · intro h
          exact Except.noConfusion h
    rw [hstep, checkSorted_error_iff, adjacent_split_cons (k, g) gs fun a b => b.1 < a.1]

/-- C2: on sorted inputs (both safe-groupby passes succeed), the Join merge
loop computes exactly the spec-level group merge: equal keys delegate both
groups and advance both sides; the smaller key delegates its group against
the empty group and advances only its side; once a side is exhausted every
remaining group of the other side is delegated against the empty group; when
both are exhausted the output terminates. -/
theorem claim_C2 {α κ β : Type} [LinearOrder κ]
    (joiner : List String → List α → List α → List β) (keys : List String)
    (keyFn : α → κ) (L R : List α) (gl gr : List (κ × List α))
    (hk : keys ≠ []) (hL : safeGroupby keyFn L = .ok gl)
    (hR : safeGroupby keyFn R = .ok gr) :
    joinCall joiner keys keyFn L R = .ok (mergeGroupsSpec joiner keys gl gr) :=
  joinCall_eq_mergeGroupsSpec joiner keys keyFn L R gl gr hk hL hR

theorem claim_C2_witness :
    joinCall (fun _ a b => a ++ b) ["k"] (id : Int → Int) [1, 1, 2] [2, 3] =
      .ok (mergeGroupsSpec (fun _ a b => a ++ b) ["k"]
        ([(1, [1, 1]), (2, [2])] : List (Int × List Int))
        ([(2, [2]), (3, [3])] : List (Int × List Int))) :=
  claim_C2 (fun _ a b => a ++ b) ["k"] id [1, 1, 2] [2, 3]
    [(1, [1, 1]), (2, [2])] [(2, [2]), (3, [3])]
    (by decide) rfl rfl

/-- C9: with a non-empty key tuple, Reduce on an empty input stream errors
with `RuntimeError` (the unguarded `next()` on the empty groupby raises
`StopIteration` inside the `_safe_groupby` generator, which PEP 479 turns
into `RuntimeError`) instead of yielding an empty stream; likewise Join when
its left input is empty, and Join when its right input is empty (stated with
the left input well-grouped, so the right side's failure is reached). -/
theorem claim_C9 {α κ β : Type} [LinearOrder κ]
    (reducer : List String → List α → List α)
    (joiner : List String → List α → List α → List β) (keys : List String)
    (keyFn : α → κ) (hk : keys ≠ []) :
    reduceCall reducer keys keyFn [] = .error .runtimeError
    ∧ (∀ rs : List α, joinCall joiner keys keyFn [] rs = .error .runtimeError)
    ∧ (∀ (ls : List α) (gs : List (κ × List α)), safeGroupby keyFn ls = .ok gs →
        joinCall joiner keys keyFn ls [] = .error .runtimeError) := by
  have hsg : safeGroupby keyFn ([] : List α) = .error .runtimeError := rfl
  refine ⟨?_, ?_, ?_⟩
  · unfold reduceCall
    rw [if_neg hk, hsg]
    rfl
  · intro rs
    unfold joinCall
    rw [if_neg hk, hsg]
    rfl
  · intro ls gs hgs
    unfold joinCall
    rw [if_neg hk, hgs, hsg]
    rfl

theorem claim_C9_witness :
    reduceCall (fun _ g => g) ["k"] (id : Int → Int) [] = .error .runtimeError
    ∧ joinCall (fun _ a b => a ++ b) ["k"] (id : Int → Int) [] [5] = .error .runtimeError
    ∧ joinCall (fun _ a b => a ++ b) ["k"] (id : Int → Int) [7] [] = .error .runtimeError := by
  have h := claim_C9 (fun _ g => g) (fun _ a b => a ++ b) ["k"] (id : Int → Int) (by decide)
  exact ⟨h.1, h.2.1 [5], h.2.2 [7] [(7, [7])] rfl⟩

/-- C1: the Join combine step (`common_join_part`, default suffixes,
non-right strategy) builds, for every `(lrow, rrow)` pair, a row that starts
as a copy of `rrow` merged with `lrow`'s fields: a key absent from the new
row is added with `lrow`'s value; a colliding join key keeps the new row's
value; a colliding non-join key `k` has its binding removed and replaced by
`k ++ "_1" ↦ lrow[k]` and `k ++ "_2" ↦ rrow[k]` (stated for rows whose
suffixed column names are fresh); and the worked inner-join example yields
exactly the expected two rows. -/
theorem claim_C1 :
    (∀ (keys : List String) (lrow rrow : Row) (q : String) (v : Value),
      lrow.keys.Nodup → rrow.keys.Nodup →
      (∀ k ∈ lrow.keys, ∀ k' ∈ lrow.keys ++ rrow.keys,
        k ++ "_1" ≠ k' ∧ k ++ "_2" ≠ k') →
      (q, v) ∈ lrow →
      ((rrow.get q = none → (mergeRow keys "_1" "_2" lrow rrow).get q = some v)
        ∧ (∀ w, rrow.get q = some w → q ∈ keys →
            (mergeRow keys "_1" "_2" lrow rrow).get q = some w)
        ∧ (∀ w, rrow.get q = some w → q ∉ keys →
            (mergeRow keys "_1" "_2" lrow rrow).get q = none
            ∧ (mergeRow keys "_1" "_2" lrow rrow).get (q ++ "_1") = some v
            ∧ (mergeRow keys "_1" "_2" lrow rrow).get (q ++ "_2") = some w)))
    ∧ (∀ (keys : List String) (sA sB : String) (L R : List Row),
        innerJoiner sA sB keys L R =
          L.flatMap fun l => R.map fun r => mergeRow keys sA sB l r)
    ∧ joinCall (innerJoiner "_1" "_2") ["id"] idKey
        [[("id", .int 1), ("v", .str "a")], [("id", .int 2), ("v", .str "b")]]
        [[("id", .int 1), ("v", .str "x")], [("id", .int 2), ("v", .str "y")]] =
      .ok [[("id", .int 1), ("v_1", .str "a"), ("v_2", .str "x")],
        [("id", .int 2), ("v_1", .str "b"), ("v_2", .str "y")]] := by
  refine ⟨?_, ?_, ?_⟩
  · intro keys lrow rrow q v hndl hndr hfresh hq
    exact mergeRow_get keys "_1" "_2" lrow rrow (by decide) hndl hndr hfresh
      (fun k hk k' hk' => suffix12_ne k k') q v hq
  · intro keys sA sB L R
    rfl
  · rw [joinCall_eq_mergeGroupsSpec (innerJoiner "_1" "_2") ["id"] idKey
      [[("id", .int 1), ("v", .str "a")], [("id", .int 2), ("v", .str "b")]]
      [[("id", .int 1), ("v", .str "x")], [("id", .int 2), ("v", .str "y")]]
      [((1 : Int), [[("id", .int 1), ("v", .str "a")]]),
        (2, [[("id", .int 2), ("v", .str "b")]])]
      [((1 : Int), [[("id", .int 1), ("v", .str "x")]]),
        (2, [[("id", .int 2), ("v", .str "y")]])]
      (by decide) (by rfl) (by rfl)]
    simp [mergeGroupsSpec]
    rfl

theorem claim_C1_witness :
    (mergeRow ["id"] "_1" "_2" [("id", Value.int 1), ("v", Value.str "a")]
      [("id", Value.int 1), ("v", Value.str "x")]).get "v" = none
    ∧ (mergeRow ["id"] "_1" "_2" [("id", Value.int 1), ("v", Value.str "a")]
      [("id", Value.int 1), ("v", Value.str "x")]).get ("v" ++ "_1") = some (Value.str "a")
    ∧ (mergeRow ["id"] "_1" "_2" [("id", Value.int 1), ("v", Value.str "a")]
      [("id", Value.int 1), ("v", Value.str "x")]).get ("v" ++ "_2") = some (Value.str "x") :=
  (claim_C1.1 ["id"] [("id", Value.int 1), ("v", Value.str "a")]
    [("id", Value.int 1), ("v", Value.str "x")] "v" (Value.str "a")
    (by decide) (by decide) (by decide) (by decide)).2.2
    (Value.str "x") (by decide) (by decide)

/-- C4: a Right-strategy join swaps the collision suffixes so the
user-visible assignment matches the other strategies: even though
`RightJoiner` passes its inputs to `common_join_part` in swapped positions,
a colliding non-join column from the physical left input is renamed with
suffix `_1` and the one from the physical right input with suffix `_2` —
exactly as `InnerJoiner` does. -/
theorem claim_C4 :
    ∀ (keys : List String) (l r : Row) (q : String) (vl vr : Value),
      l.keys.Nodup → r.keys.Nodup →
      (∀ k ∈ l.keys ++ r.keys, ∀ k' ∈ l.keys ++ r.keys,
        k ++ "_1" ≠ k' ∧ k ++ "_2" ≠ k') →
      (q, vl) ∈ l → (q, vr) ∈ r → q ∉ keys →
      rightJoiner "_1" "_2" keys [l] [r] = [mergeRow keys "_2" "_1" r l]
      ∧ (mergeRow keys "_2" "_1" r l).get (q ++ "_1") = some vl
      ∧ (mergeRow keys "_2" "_1" r l).get (q ++ "_2") = some vr
      ∧ innerJoiner "_1" "_2" keys [l] [r] = [mergeRow keys "_1" "_2" l r]
      ∧ (mergeRow keys "_1" "_2" l r).get (q ++ "_1") = some vl
      ∧ (mergeRow keys "_1" "_2" l r).get (q ++ "_2") = some vr := by
  intro keys l r q vl vr hndl hndr hfresh hql hqr hqk
  have hmemL : ∀ k, k ∈ l.keys → k ∈ l.keys ++ r.keys := fun k hk =>
    List.mem_append_left _ hk
  have hmemR : ∀ k, k ∈ r.keys → k ∈ l.keys ++ r.keys := fun k hk =>
    List.mem_append_right _ hk
  have hmemRL : ∀ k, k ∈ r.keys ++ l.keys → k ∈ l.keys ++ r.keys := by
    intro k hk
    rcases List.mem_append.mp hk with hk | hk
    · exact hmemR k hk
    · exact hmemL k hk
  have hright := mergeRow_get keys "_2" "_1" r l (by decide) hndr hndl
    (fun k hk k' hk' =>
      ⟨(hfresh k (hmemR k hk) k' (hmemRL k' hk')).2,
        (hfresh k (hmemR k hk) k' (hmemRL k' hk')).1⟩)
    (fun k hk k' hk' => suffix21_ne k k') q vr hqr
  have hinner := mergeRow_get keys "_1" "_2" l r (by decide) hndl hndr
    (fun k hk k' hk' => hfresh k (hmemL k hk) k' hk')
    (fun k hk k' hk' => suffix12_ne k k') q vl hql
  have hgl : l.get q = some vl := Row.get_of_mem hql hndl
  have hgr : r.get q = some vr := Row.get_of_mem hqr hndr
  have hr3 := hright.2.2 vl hgl hqk
  have hi3 := hinner.2.2 vr hgr hqk
  refine ⟨?_, hr3.2.2, hr3.2.1, ?_, hi3.2.1, hi3.2.2⟩
  · show (if ([l] : List Row) = [] then [r] else commonJoinPart "_1" "_2" "right" keys [r] [l]) = _
    rw [if_neg (by simp)]
    rfl
  · rfl

theorem claim_C4_witness :
    rightJoiner "_1" "_2" ["id"] [[("id", Value.int 1), ("v", Value.str "a")]]
      [[("id", Value.int 1), ("v", Value.str "x")]] =
      [mergeRow ["id"] "_2" "_1" [("id", Value.int 1), ("v", Value.str "x")]
        [("id", Value.int 1), ("v", Value.str "a")]]
    ∧ (mergeRow ["id"] "_2" "_1" [("id", Value.int 1), ("v", Value.str "x")]
        [("id", Value.int 1), ("v", Value.str "a")]).get ("v" ++ "_1") = some (Value.str "a")
    ∧ (mergeRow ["id"] "_2" "_1" [("id", Value.int 1), ("v", Value.str "x")]
        [("id", Value.int 1), ("v", Value.str "a")]).get ("v" ++ "_2") = some (Value.str "x")
    ∧ innerJoiner "_1" "_2" ["id"] [[("id", Value.int 1), ("v", Value.str "a")]]
        [[("id", Value.int 1), ("v", Value.str "x")]] =
      [mergeRow ["id"] "_1" "_2" [("id", Value.int 1), ("v", Value.str "a")]
        [("id", Value.int 1), ("v", Value.str "x")]]
    ∧ (mergeRow ["id"] "_1" "_2" [("id", Value.int 1), ("v", Value.str "a")]
        [("id", Value.int 1), ("v", Value.str "x")]).get ("v" ++ "_1") = some (Value.str "a")
    ∧ (mergeRow ["id"] "_1" "_2" [("id", Value.int 1), ("v", Value.str "a")]
        [("id", Value.int 1), ("v", Value.str "x")]).get ("v" ++ "_2") = some (Value.str "x") :=
  claim_C4 ["id"] [("id", Value.int 1), ("v", Value.str "a")]
    [("id", Value.int 1), ("v", Value.str "x")] "v" (Value.str "a") (Value.str "x")
    (by decide) (by decide) (by decide) (by decide) (by decide) (by decide)

theorem run_single_parent {α κ : Type} [LinearOrder κ] (op : Op α κ) (g : Graph α κ)
    (src : String → Option (List α)) :
    Graph.run src (⟨op, [g]⟩ : Graph α κ) =
      (Graph.run src g).bind fun outs => applyOp op [outs] src := by
  rw [Graph.run, Graph.runList, Graph.runList]
  cases hg : Graph.run src g with
  | error e => rfl
  | ok outs => rfl

/-- C5: the Sort operation (`Graph.sort`, backed by the spec-modelled
`ExternalSort`) emits a permutation of its input whose key projection is
ascending, preserving the input order among rows with equal keys
(stability); and running a graph extended with a sort node sorts the
parent's output stream. -/
theorem claim_C5 {α κ : Type} [LinearOrder κ] (keyFn : α → κ) (rows : List α)
    (g : Graph α κ) (src : String → Option (List α)) :
    (externalSort keyFn rows).Perm rows
    ∧ ((externalSort keyFn rows).map keyFn).Sorted (· ≤ ·)
    ∧ (∀ k, ((externalSort keyFn rows).filter fun x => decide (keyFn x = k)) =
        rows.filter fun x => decide (keyFn x = k))
    ∧ Graph.run src (g.sortG keyFn) =
        (Graph.run src g).bind fun out => .ok (externalSort keyFn out) := by
  refine ⟨externalSort_perm keyFn rows, externalSort_sorted keyFn rows,
    fun k => externalSort_filter_eq keyFn rows k, ?_⟩
  show Graph.run src (⟨.sort keyFn, [g]⟩ : Graph α κ) = _
  rw [run_single_parent]
  cases Graph.run src g <;> rfl

/-- C6: `Graph.copy` returns a graph with the same operation and the same
parents list, and running the copy on any set of sources produces the same
output stream as running the original. -/
theorem claim_C6 {α κ : Type} [LinearOrder κ] (g : Graph α κ) :
    g.copy.operation = g.operation ∧ g.copy.parents = g.parents
    ∧ ∀ src : String → Option (List α), Graph.run src g.copy = Graph.run src g := by
  obtain ⟨op, ps⟩ := g
  exact ⟨rfl, rfl, fun _ => rfl⟩

/-- C7 counterexample: on a row whose denominator column is zero, `Divide`
fails with `ValueError('Denominator column contains zero value')` — a
`ValueError` is not an `ArithmeticError` in Python's exception hierarchy, so
the claim's stated error class is wrong. -/
theorem claim_C7_counterexample :
    divideMapper "x" "y" "divide" [("x", Value.int 1), ("y", Value.int 0)] =
      .error (.valueError "Denominator column contains zero value")
    ∧ (PyErr.valueError "Denominator column contains zero value").isArithmeticError = false :=
  ⟨rfl, rfl⟩

/-- C7 (amended): for every input row whose numerator column holds a number
and whose denominator column value equals zero, the `Divide` mapper fails
with `ValueError('Denominator column contains zero value')` (the caught
`ZeroDivisionError` is re-raised as a `ValueError`, not an
`ArithmeticError`). -/
theorem claim_C7 (numCol denCol resCol : String) (row : Row)
    (hnum : (∃ n : Int, row.get numCol = some (.int n))
      ∨ (∃ q : ℚ, row.get numCol = some (.rat q)))
    (hden : row.get denCol = some (.int 0) ∨ row.get denCol = some (.rat 0)) :
    divideMapper numCol denCol resCol row =
      .error (.valueError "Denominator column contains zero value") := by
  unfold divideMapper
  rcases hnum with ⟨n, h⟩ | ⟨q, h⟩ <;> rcases hden with hd | hd <;> simp [h, hd]

theorem claim_C7_witness :
    divideMapper "x" "y" "divide" [("x", Value.int 3), ("y", Value.int 0)] =
      .error (.valueError "Denominator column contains zero value") :=
  claim_C7 "x" "y" "divide" [("x", Value.int 3), ("y", Value.int 0)]
    (Or.inl ⟨3, rfl⟩) (Or.inl rfl)

/-- C10: the column-transforming mappers `FilterPunctuation`, `LowerCase`
and `Product` assign into the input row dict and yield that same object:
running `Map` over the object store returns exactly the input object
references as the output stream, and the store cells holding the source's
rows are overwritten with the transformed rows — the caller-supplied rows
are mutated in place, not copied. -/
theorem claim_C10 :
    (∀ (col : String) (store : List Row),
      (∀ r ∈ store, ∃ s, r.get col = some (.str s)) →
      ∃ store', runMapStore (filterPunctuationM col) store (List.range store.length) =
          .ok (store', List.range store.length)
        ∧ ∀ i ∈ List.range store.length,
            store'[i]? = Option.map (filterPunctuationF col) store[i]?)
    ∧ (∀ (col : String) (store : List Row),
      (∀ r ∈ store, ∃ s, r.get col = some (.str s)) →
      ∃ store', runMapStore (lowerCaseM col) store (List.range store.length) =
          .ok (store', List.range store.length)
        ∧ ∀ i ∈ List.range store.length,
            store'[i]? = Option.map (lowerCaseF col) store[i]?)
    ∧ (∀ (cols : List String) (resCol : String) (store : List Row),
      resCol ∉ cols →
      (∀ r ∈ store, ∀ c ∈ cols, ∃ n : Int, r.get c = some (.int n)) →
      ∃ store', runMapStore (productM cols resCol) store (List.range store.length) =
          .ok (store', List.range store.length)
        ∧ ∀ i ∈ List.range store.length,
            store'[i]? = Option.map (productF cols resCol) store[i]?) := by
  refine ⟨?_, ?_, ?_⟩
  · intro col store h
    obtain ⟨store', hrun, _, hin, _⟩ :=
      runMapStore_sameObj (filterPunctuationM col) (filterPunctuationF col)
        (fun r => ∃ s, r.get col = some (.str s))
        (fun r hr => filterPunctuationM_eq col r hr.choose hr.choose_spec)
        (List.range store.length) store (List.nodup_range _)
        (fun i hi => by
          have hlt : i < store.length := List.mem_range.mp hi
          exact ⟨store[i], List.getElem?_eq_getElem hlt, h store[i] (store.getElem_mem hlt)⟩)
    exact ⟨store', hrun, hin⟩
  · intro col store h
    obtain ⟨store', hrun, _, hin, _⟩ :=
      runMapStore_sameObj (lowerCaseM col) (lowerCaseF col)
        (fun r => ∃ s, r.get col = some (.str s))
        (fun r hr => lowerCaseM_eq col r hr.choose hr.choose_spec)
        (List.range store.length) store (List.nodup_range _)
        (fun i hi => by
          have hlt : i < store.length := List.mem_range.mp hi
          exact ⟨store[i], List.getElem?_eq_getElem hlt, h store[i] (store.getElem_mem hlt)⟩)
    exact ⟨store', hrun, hin⟩
  · intro cols resCol store hres h
    obtain ⟨store', hrun, _, hin, _⟩ :=
      runMapStore_sameObj (productM cols resCol) (productF cols resCol)
        (fun r => ∀ c ∈ cols, ∃ n : Int, r.get c = some (.int n))
        (fun r hr => productM_eq cols resCol r hres hr)
        (List.range store.length) store (List.nodup_range _)
        (fun i hi => by
          have hlt : i < store.length := List.mem_range.mp hi
          exact ⟨store[i], List.getElem?_eq_getElem hlt, h store[i] (store.getElem_mem hlt)⟩)
    exact ⟨store', hrun, hin⟩

theorem claim_C10_witness :
    ∃ store', runMapStore (filterPunctuationM "text") [[("text", Value.str "a,b")]]
        (List.range (1 : Nat)) = .ok (store', List.range (1 : Nat))
      ∧ ∀ i ∈ List.range (1 : Nat), store'[i]? =
          Option.map (filterPunctuationF "text") [[("text", Value.str "a,b")]][i]? :=
  claim_C10.1 "text" [[("text", Value.str "a,b")]] (by
    intro r hr
    rw [List.mem_singleton] at hr
    subst hr
    exact ⟨"a,b", rfl⟩)
